import Mathlib

/-!
# Verification of the `otf2clm` CLM binary encoder

A shallow embedding of `src/prebuilt/otf2clm.py` (the OTF → CLM converter),
together with proofs about the encoder's behaviour.

Modelling conventions:

* Byte output is modelled as `List Nat`, each element a byte value in `[0, 256)`.
* `struct.pack` codes are modelled by explicit big-endian arithmetic
  (`'!H'` → `packU16`, `'!h'` → `packI16`, `'!I'` → `packU32`, `'!i'` → `packI32`,
  `'B'`/`'?'`/`'c'` → a single byte).  `struct.pack` raises on out-of-range
  values; the claims below never depend on out-of-range behaviour, so the
  model wraps values with `%` instead.
* Python 3 `map`/`filter` objects are single-use iterators.  Several
  functions in the source receive such iterators and both measure and
  iterate them; to capture this faithfully the iterator state is made
  explicit as `PyIter` (the elements not yet consumed).  `list(it)` is
  `pyList`, which returns the remaining elements and the exhausted iterator.
* Python's `sorted` is a stable sort; it is modelled by a stable insertion
  sort (`isortKey`), which inserts each element before the first element
  whose key is strictly greater, preserving the relative order of equal
  keys.
* Python `dict` lookups (`glyph_name_id_map[...]`) are modelled as total
  functions `String → Nat`; the claims below do not concern the `KeyError`
  (fatal resolution failure) path.
-/

/-! ## Byte packing (`struct.pack` codes) -/

/-- `struct.pack('!H', n)`: unsigned 16-bit big-endian. -/
def packU16 (n : Nat) : List Nat := [n / 256 % 256, n % 256]

/-- `struct.pack('!I', n)`: unsigned 32-bit big-endian. -/
def packU32 (n : Nat) : List Nat :=
  [n / 16777216 % 256, n / 65536 % 256, n / 256 % 256, n % 256]

/-- `struct.pack('!h', v)`: signed 16-bit big-endian, two's complement. -/
def packI16 (v : Int) : List Nat := packU16 (v % 65536).toNat

/-- `struct.pack('!i', v)`: signed 32-bit big-endian, two's complement. -/
def packI32 (v : Int) : List Nat := packU32 (v % 4294967296).toNat

/-- `struct.pack('?', b)`: one boolean byte. -/
def packBool (b : Bool) : List Nat := [if b then 1 else 0]

/-- `struct.pack('c', ch)`: one ASCII character byte. -/
def packChar (c : Char) : List Nat := [c.toNat % 256]

/-! ## Python single-use iterators -/

/-- The state of a Python 3 `map`/`filter` iterator: the elements that have
not yet been consumed.  A fresh iterator holds the full element sequence. -/
structure PyIter (α : Type) where
  remaining : List α

/-- `list(it)`: drains the iterator, returning its remaining elements and the
exhausted iterator. -/
def pyList {α : Type} (it : PyIter α) : List α × PyIter α :=
  (it.remaining, ⟨[]⟩)

/-! ## Stable insertion sort (model of Python `sorted(xs, key=...)`) -/

/-- Insert `x` before the first element whose key is strictly greater than
`key x`; equal keys keep the earlier element first (stability). -/
def ordInsert {α : Type} (key : α → Nat) (x : α) : List α → List α
  | [] => [x]
  | y :: ys => if key y < key x then y :: ordInsert key x ys else x :: y :: ys

/-- Stable insertion sort by an integer key: model of `sorted(xs, key=...)`. -/
def isortKey {α : Type} (key : α → Nat) : List α → List α
  | [] => []
  | x :: xs => ordInsert key x (isortKey key xs)

theorem mem_ordInsert {α : Type} (key : α → Nat) (x b : α) (l : List α) :
    b ∈ ordInsert key x l ↔ b = x ∨ b ∈ l := by
  induction l with
  | nil => simp [ordInsert]
  | cons y ys ih =>
    simp only [ordInsert]
    split
    · simp only [List.mem_cons, ih]
      tauto
    · simp only [List.mem_cons]

theorem sorted_ordInsert {α : Type} (key : α → Nat) (x : α) (l : List α)
    (h : List.Sorted (fun a b => key a ≤ key b) l) :
    List.Sorted (fun a b => key a ≤ key b) (ordInsert key x l) := by
  induction l with
  | nil => simp [ordInsert]
  | cons y ys ih =>
    rw [List.sorted_cons] at h
    simp only [ordInsert]
    split
    · rename_i hk
      rw [List.sorted_cons]
      refine ⟨?_, ih h.2⟩
      intro b hb
      rcases (mem_ordInsert key x b ys).mp hb with rfl | hb
      · omega
      · exact h.1 b hb
    · rename_i hk
      rw [List.sorted_cons]
      constructor
      · intro b hb
        rcases List.mem_cons.mp hb with rfl | hb
        · omega
        · have := h.1 b hb
          omega
      · rw [List.sorted_cons]
        exact h

theorem sorted_isortKey {α : Type} (key : α → Nat) (l : List α) :
    List.Sorted (fun a b => key a ≤ key b) (isortKey key l) := by
  induction l with
  | nil => simp [isortKey]
  | cons x xs ih => exact sorted_ordInsert key x _ ih

/-! ## `write_clm_unicode_glyph_map` (otf2clm.py lines 414–419)

```python
def write_clm_unicode_glyph_map(f, unicode_glyph_map):
    length = len(unicode_glyph_map)
    f.write(struct.pack('!H', length))
    sort_map = sorted(unicode_glyph_map, key=lambda x: x[0])
    for (codepoint, glyph_id,) in sort_map:
        f.write(struct.pack('!IH', codepoint, glyph_id))
```
`unicode_glyph_map` is a plain Python list (built by `append` in
`parse_otf`), so no iterator subtleties arise here. -/

/-- `sorted(unicode_glyph_map, key=lambda x: x[0])`: entries sorted by
codepoint. -/
def unicode_sort_map (m : List (Nat × Nat)) : List (Nat × Nat) :=
  isortKey Prod.fst m

/-- Bytes written by `write_clm_unicode_glyph_map`. -/
def write_clm_unicode_glyph_map (m : List (Nat × Nat)) : List Nat :=
  packU16 m.length ++
    (unicode_sort_map m).flatMap (fun e => packU32 e.1 ++ packU16 e.2)

/-! ## `read_kern` (otf2clm.py lines 194–207)

```python
def read_kern(glyph, kern_subtable_names):
    return chain(
        partial(fmap, lambda subtable_name: glyph.getPosSub(subtable_name)),
        # only care about horizontal kerning
        partial(filter, lambda kern_info: kern_info[5] != 0),
        partial(map, lambda kern_info: (kern_info[2], kern_info[5],))
    )(kern_subtable_names)
```
`glyph.getPosSub(name)` returns tuples whose index 2 is the other glyph's
name and whose index 5 is the horizontal kerning value; only those two
positions are read by this code, so `KernInfo` models exactly them. -/

/-- One tuple returned by `glyph.getPosSub` for a pairwise-kerning subtable.
`pos2` is tuple index 2 (the other glyph's name), `pos5` is tuple index 5
(the horizontal kerning value).  The other tuple positions are never read. -/
structure KernInfo where
  pos2 : String
  pos5 : Int

/-- `read_kern`: flat-map `getPosSub` over the subtable names, keep the
entries with non-zero horizontal kerning, project to (name, value).  The
Python value is a single-use `map` iterator; this is the element sequence it
yields. -/
def read_kern (getPosSub : String → List KernInfo) (kern_subtable_names : List String) :
    List (String × Int) :=
  ((kern_subtable_names.flatMap getPosSub).filter (fun k => k.pos5 ≠ 0)).map
    (fun k => (k.pos2, k.pos5))

/-! ## `write_kerns` (otf2clm.py lines 515–525, inside `write_glyphs`)

```python
def write_kerns(kerns):
    if not kerns:
        f.write(struct.pack('!H', 0))
        return
    f.write(struct.pack('!H', len(list(kerns))))
    sorted_kerns = chain(
        partial(map, lambda x: (glyph_name_id_map[x[0]], x[1],)),
        partial(sorted, key=lambda x: x[0])
    )(kerns)
    for (glyph, value,) in sorted_kerns:
        f.write(struct.pack('!Hh', glyph, value))
```
`kerns` is the `map` iterator produced by `read_kern`, so:

* `not kerns` is always false (a `map` object is truthy even when it would
  yield nothing), so the early-return branch is dead;
* `len(list(kerns))` drains the iterator, so the later
  `sorted(map(...), ...)` over the same iterator sees no elements. -/

/-- Bytes written by `write_kerns` when handed the (single-use) kerning
iterator of one glyph. -/
def write_kerns (kerns : PyIter (String × Int)) (glyph_name_id_map : String → Nat) :
    List Nat :=
  -- `if not kerns:` — `kerns` is a map object, always truthy: branch not taken
  let consumed := pyList kerns
  let count_bytes := packU16 consumed.1.length
  -- `kerns` has been exhausted by `len(list(kerns))`; `sorted` sees the rest
  let sorted_kerns :=
    isortKey Prod.fst
      ((pyList consumed.2).1.map (fun x => (glyph_name_id_map x.1, x.2)))
  count_bytes ++ sorted_kerns.flatMap (fun e => packU16 e.1 ++ packI16 e.2)

/-! ## `write_clm_kerning_class` (otf2clm.py lines 422–463)

```python
def write_clm_kerning_class(f, kerning_classes, glyph_name_id_map):
    length = len(list(kerning_classes))
    f.write(struct.pack('!H', length))
    write_classes = chain(
        partial(map, lambda y: map(lambda x: (x, y[0],), y[1])),
        partial(do, lambda xs: f.write(struct.pack('!H', len(xs)))),
        ...
    )
    for (left, right, value,) in kerning_classes:
        write_classes(enumerate(left[1:]))
        write_classes(enumerate(right[1:]))
        column_count = len(right)
        for i, v in enumerate(value):
            if i < column_count or i % column_count == 0:
                continue
            f.write(struct.pack('!h', v))
```
`kerning_classes` is the `map` iterator produced by `read_kerning_class`
(`parse_otf` line 646 passes it straight through), so `len(list(...))`
drains it and the `for` loop iterates zero times.  Were the loop body ever
to run, its first `write_classes` step would raise `TypeError`: the `do`
step applies `len` to a `map` object, which has no `len`; so the body
writes no bytes before failing. -/

/-- One kerning class table as returned by `font.getKerningClass`:
left classes, right classes (first entry of each is the `None` sentinel,
the rest are glyph-name tuples), and the row-major value matrix. -/
structure KClassTable where
  left : List (Option (List String))
  right : List (Option (List String))
  value : List Int

/-- The value-matrix elision loop of `write_clm_kerning_class`
(otf2clm.py lines 459–463), for one table: walk the row-major cells with
their linear index `i` and skip every cell with `i < column_count` (row 0)
or `i % column_count == 0` (column 0).  Returns the kept cells in order. -/
def kc_values (column_count : Nat) : Nat → List Int → List Int
  | _, [] => []
  | i, v :: rest =>
    if i < column_count ∨ i % column_count = 0 then kc_values column_count (i + 1) rest
    else v :: kc_values column_count (i + 1) rest

/-- The bytes of the value block of one table: each kept cell packed `'!h'`. -/
def kc_values_bytes (column_count : Nat) (value : List Int) : List Nat :=
  (kc_values column_count 0 value).flatMap packI16

/-- Bytes written by `write_clm_kerning_class` before any error, paired with
whether it completed without raising.  The count is written from
`len(list(kerning_classes))`; the subsequent `for` loop runs over the
already-exhausted iterator, so it contributes nothing (and the `TypeError`
lurking in its body is never reached). -/
def write_clm_kerning_class (kerning_classes : PyIter KClassTable) :
    List Nat × Bool :=
  let consumed := pyList kerning_classes
  let count_bytes := packU16 consumed.1.length
  -- the loop over the exhausted iterator: zero iterations, no bytes, no error
  match (pyList consumed.2).1 with
  | [] => (count_bytes, true)
  | _ :: _ => (count_bytes, false)  -- body would raise TypeError before writing

/-! ## Path commands (otf2clm.py lines 210–292)

A parsed path command is the Python list `[opcode, n1, n2, ...]`, modelled
as the opcode character paired with its operand list (Python index `t[k]`
for `k ≥ 1` is operand index `k - 1` here). -/

/-- A parsed path command: opcode and integer operands. -/
abbrev PathCmd := Char × List Int

/-- `path_cmd_arg_cnt` (lines 210–221): operand count per opcode; `-1` for
the close command, `0` for unrecognized characters. -/
def path_cmd_arg_cnt (x : Char) : Int :=
  if x = 'M' ∨ x = 'm' ∨ x = 'L' ∨ x = 'l' ∨ x = 'T' ∨ x = 't' then 2
  else if x = 'H' ∨ x = 'h' ∨ x = 'V' ∨ x = 'v' then 1
  else if x = 'C' ∨ x = 'c' then 6
  else if x = 'S' ∨ x = 's' ∨ x = 'Q' ∨ x = 'q' then 4
  else if x = 'Z' ∨ x = 'z' then -1
  else 0

/-- `is_valid_digit` (lines 224–225). -/
def is_valid_digit (c : Char) : Bool :=
  c = '.' ∨ c = '-' ∨ c.isDigit

/-- In-place negation of one Python list slot, `t[k] = -t[k]`, carried over
to the operand list (operand index `k - 1`).  Out-of-range indices cannot
occur on parsed commands (and would raise `IndexError` in Python). -/
def neg_at : List Int → Nat → List Int
  | [], _ => []
  | x :: xs, 0 => -x :: xs
  | x :: xs, i + 1 => x :: neg_at xs i

/-- `mirror_cmd` (lines 228–241): negate the vertical operands of one
command, by opcode. -/
def mirror_cmd (t : PathCmd) : PathCmd :=
  let x := t.1
  if x = 'M' ∨ x = 'm' ∨ x = 'L' ∨ x = 'l' ∨ x = 'T' ∨ x = 't' then
    (x, neg_at t.2 1)        -- t[2] = -t[2]
  else if x = 'V' ∨ x = 'v' then
    (x, neg_at t.2 0)        -- t[1] = -t[1]
  else if x = 'C' ∨ x = 'c' then
    (x, neg_at (neg_at (neg_at t.2 1) 3) 5)  -- t[2], t[4], t[6]
  else if x = 'S' ∨ x = 's' ∨ x = 'Q' ∨ x = 'q' then
    (x, neg_at (neg_at t.2 1) 3)             -- t[2], t[4]
  else t

/-- `mirror` (lines 243–245): mirror every command of the list. -/
def mirror (data : List PathCmd) : List PathCmd :=
  data.map mirror_cmd

/-- A command list is well-formed when every command carries exactly the
operand count of its opcode — the shape `read_glyph_path`'s scanner
produces (`Z`/`z` get `(-1).toNat = 0` operands). -/
def PathWF (data : List PathCmd) : Prop :=
  ∀ t ∈ data, t.2.length = (path_cmd_arg_cnt t.1).toNat

/-! ### The scanner of `read_glyph_path` (lines 268–292)

```python
    def digits(i):
        j = i
        while is_valid_digit(v[j]):
            j += 1
        return (v[i:j], j,)

    i = 0
    while i < len(v):
        x = v[i]
        cnt = path_cmd_arg_cnt(x)
        if not cnt:
            i += 1
            continue
        i += 1
        cmd = [x]
        for j in range(0, cnt):
            while not is_valid_digit(v[i]):
                i += 1
            r = digits(i)
            cmd.append(int(r[0]))
            i = r[1]
        data.append(cmd)
```
Any indexing past the end of the string (`v[i]`/`v[j]` with the index at
`len(v)`) raises `IndexError`; the model returns `none` there.  `int(s)`
raises `ValueError` unless `s` is an optional `-` followed by a non-empty
digit run; the model returns `none` there. -/

/-- Scan the suffix `v[i:]` (passed as a list) for the first valid-digit
character, tracking the absolute index `i`. -/
def skip_aux : List Char → Nat → Option Nat
  | [], _ => none
  | c :: rest, i => if is_valid_digit c then some i else skip_aux rest (i + 1)

/-- `while not is_valid_digit(v[i]): i += 1` — first index `≥ i` holding a
valid digit character, `none` if the scan runs off the end (`IndexError`). -/
def skip_non_digit (v : List Char) (i : Nat) : Option Nat :=
  skip_aux (v.drop i) i

/-- Scan the suffix `v[j:]` for the first non-valid-digit character,
tracking the absolute index `j`. -/
def digits_aux : List Char → Nat → Option Nat
  | [], _ => none
  | c :: rest, j => if is_valid_digit c then digits_aux rest (j + 1) else some j

/-- The `while` of `digits`: first index `≥ j` holding a non-digit
character, `none` if the scan runs off the end (`IndexError`). -/
def digits_end (v : List Char) (j : Nat) : Option Nat :=
  digits_aux (v.drop j) j

/-- `int(s)` on a token drawn from valid-digit characters: an optional `-`
followed by a non-empty run of decimal digits; anything else (a `.`, a
stray `-`, an empty token) raises `ValueError`, modelled as `none`. -/
def py_int (s : List Char) : Option Int :=
  let digitsVal : List Char → Option Nat := fun ds =>
    if ds ≠ [] ∧ ds.all Char.isDigit then
      some (ds.foldl (fun acc c => acc * 10 + (c.toNat - '0'.toNat)) 0)
    else none
  match s with
  | '-' :: rest => (digitsVal rest).map (fun n => -(n : Int))
  | _ => (digitsVal s).map (fun n => (n : Int))

/-- The operand loop: read `cnt` numeric operands starting at index `i`,
returning them with the index just past the last one. -/
def read_args (v : List Char) : Nat → Nat → Option (List Int × Nat)
  | 0, i => some ([], i)
  | cnt + 1, i => do
    let i1 ← skip_non_digit v i
    let j ← digits_end v i1
    let n ← py_int ((v.drop i1).take (j - i1))
    let (rest, k) ← read_args v cnt j
    pure (n :: rest, k)

/-- The outer scanner loop, starting at index `i`.  `fuel` bounds the number
of loop iterations; since `i` strictly increases every iteration, `v.length`
iterations always suffice. -/
def parse_path_loop (v : List Char) : Nat → Nat → Option (List PathCmd)
  | _, 0 => none
  | i, fuel + 1 =>
    if i < v.length then
      let x := v.getD i ' '
      let cnt := path_cmd_arg_cnt x
      if cnt = 0 then parse_path_loop v (i + 1) fuel
      else do
        let (args, i2) ← read_args v cnt.toNat (i + 1)
        let rest ← parse_path_loop v i2 fuel
        pure ((x, args) :: rest)
    else some []

/-- The scanner of `read_glyph_path`, before the mirror step: parse the
path description string into commands. -/
def parse_path_cmds (v : List Char) : Option (List PathCmd) :=
  parse_path_loop v 0 (v.length + 1)

/-- `read_glyph_path`'s result for a non-empty `d` attribute: parse, then
mirror in place (line 291). -/
def read_glyph_path (v : List Char) : Option (List PathCmd) :=
  (parse_path_cmds v).map mirror

/-! ## `write_ligas` (otf2clm.py lines 466–500)

```python
def write_ligas(f, ligas, glyph_name_id_map):
    forest = []

    def add_node(glyphs, liga):
        children = forest
        child = None
        for (glyph, char,) in glyphs:
            child = find_first(children, lambda x: x['glyph'] == glyph)
            if not child:
                child = {'glyph': glyph, 'char': char, 'liga': -1, 'children': []}
                children.append(child)
            children = child['children']
        child['liga'] = liga

    for (chars, liga,) in ligas:
        add_node(map(lambda char: (glyph_name_id_map[char], char,), chars), liga)

    def sort_children(children):
        for child in children:
            child['children'] = sort_children(child['children'])
        return sorted(children, key=lambda x: x['glyph'])

    forest = sort_children(forest)

    def write_node(node):
        f.write(struct.pack('!H', node['glyph']))
        f.write(struct.pack('!i', node['liga']))
        f.write(struct.pack('!H', len(node['children'])))
        for child in node['children']:
            write_node(child)

    root = {'glyph': 0, 'char': 0, 'liga': -1, 'children': forest}
    write_node(root)
```
A rule with an empty component sequence leaves `child = None` and
`child['liga'] = liga` raises `AttributeError` before anything is written;
the model returns `none` there.  The stored `'char'` field is never read
by `find_first`, `sort_children` or `write_node`. -/

/-- Trie node as built by `add_node`: the dict
`{'glyph': .., 'char': .., 'liga': .., 'children': [..]}`. -/
inductive LNode : Type where
  | node (glyph : Nat) (char : String) (liga : Int) (children : List LNode)

/-- The sort key `lambda x: x['glyph']`. -/
def LNode.glyph : LNode → Nat
  | .node g _ _ _ => g

/-- The chain of fresh nodes `add_node` creates once `find_first` misses:
intermediate nodes get liga `-1`, the last node gets the rule's liga. -/
def freshChain : Nat → String → List (Nat × String) → Int → LNode
  | g, c, [], liga => .node g c liga []
  | g, c, (g', c') :: rest, liga => .node g c (-1) [freshChain g' c' rest liga]

/-- One `add_node` walk along a non-empty component path `(g,c) :: rest`:
find the first child with this glyph (keeping list order, appending a fresh
chain at the end on a miss), descend, and set the liga at the final node. -/
def addGo : Nat → String → List (Nat × String) → Int → List LNode → List LNode
  | g, c, rest, liga, [] => [freshChain g c rest liga]
  | g, c, rest, liga, .node g' c' l' cs' :: f =>
    if g' = g then
      (match rest with
       | [] => LNode.node g' c' liga cs'
       | (h, hc) :: t => LNode.node g' c' l' (addGo h hc t liga cs')) :: f
    else .node g' c' l' cs' :: addGo g c rest liga f
termination_by g c rest liga f => (rest.length, f.length)

/-- `add_node(map(...), liga)`: `none` models the `AttributeError` raised
when the component sequence is empty. -/
def add_node (glyphs : List (Nat × String)) (liga : Int) (f : List LNode) :
    Option (List LNode) :=
  match glyphs with
  | [] => none
  | (g, c) :: rest => some (addGo g c rest liga f)

/-- Fold all rules into the forest, mapping each component name through
`glyph_name_id_map` as `add_node` is called. -/
def build_forest (ligas : List (List String × Int)) (m : String → Nat) :
    Option (List LNode) :=
  ligas.foldl
    (fun of r => of.bind (add_node (r.1.map (fun ch => (m ch, ch))) r.2))
    (some [])

/-- `sort_children`: recursively sort every node's children, then sort the
list itself ascending by glyph (Python `sorted` is stable; `ordInsert`
preserves the relative order of equal glyphs). -/
def sortForest : List LNode → List LNode
  | [] => []
  | .node g c l cs :: rest =>
    ordInsert LNode.glyph (.node g c l (sortForest cs)) (sortForest rest)
termination_by f => sizeOf f

/-- `write_node` mapped over a forest: for each node, glyph (`!H`), liga
(`!i`), child count (`!H`), then the children recursively. -/
def serForest : List LNode → List Nat
  | [] => []
  | .node g _ l cs :: rest =>
    (packU16 g ++ packI32 l ++ packU16 cs.length ++ serForest cs) ++ serForest rest
termination_by f => sizeOf f

/-- Bytes written by `write_ligas` (`none` when a rule with an empty
component sequence aborts the build): build the forest, sort it, and
serialize `write_node(root)` with the synthetic root
`{'glyph': 0, 'liga': -1}`. -/
def write_ligas (ligas : List (List String × Int)) (m : String → Nat) :
    Option (List Nat) :=
  (build_forest ligas m).map (fun forest =>
    let sorted := sortForest forest
    packU16 0 ++ packI32 (-1) ++ packU16 sorted.length ++ serForest sorted)

/-! ### Stripped trie (proof device)

The `'char'` field is dead: no byte of the output depends on it.  `SNode`
is `LNode` with `char` erased, and the `s*` functions mirror the builders
above at the id level; `stripF` relates the two levels. -/

/-- `LNode` without the dead `char` field. -/
inductive SNode : Type where
  | node (glyph : Nat) (liga : Int) (children : List SNode)

def SNode.glyph : SNode → Nat
  | .node g _ _ => g

/-- `freshChain` at the id level. -/
def sfresh : Nat → List Nat → Int → SNode
  | g, [], liga => .node g liga []
  | g, h :: t, liga => .node g (-1) [sfresh h t liga]

/-- `addGo` at the id level. -/
def sadd : Nat → List Nat → Int → List SNode → List SNode
  | g, rest, liga, [] => [sfresh g rest liga]
  | g, rest, liga, .node g' l' cs' :: f =>
    if g' = g then
      (match rest with
       | [] => SNode.node g' liga cs'
       | h :: t => SNode.node g' l' (sadd h t liga cs')) :: f
    else .node g' l' cs' :: sadd g rest liga f
termination_by g rest liga f => (rest.length, f.length)

/-- `sortForest` at the id level. -/
def ssortF : List SNode → List SNode
  | [] => []
  | .node g l cs :: rest =>
    ordInsert SNode.glyph (.node g l (ssortF cs)) (ssortF rest)
termination_by f => sizeOf f

/-- `serForest` at the id level. -/
def sserF : List SNode → List Nat
  | [] => []
  | .node g l cs :: rest =>
    (packU16 g ++ packI32 l ++ packU16 cs.length ++ sserF cs) ++ sserF rest
termination_by f => sizeOf f

/-- Insertion of a non-empty id path directly into an already-sorted
forest, keeping it sorted: the canonical form of `sortForest ∘ addGo`. -/
def cadd : Nat → List Nat → Int → List SNode → List SNode
  | g, rest, liga, [] => [sfresh g rest liga]
  | g, rest, liga, .node g' l' cs' :: F =>
    if g' < g then .node g' l' cs' :: cadd g rest liga F
    else if g' = g then
      (match rest with
       | [] => SNode.node g' liga cs'
       | h :: t => SNode.node g' l' (cadd h t liga cs')) :: F
    else sfresh g rest liga :: .node g' l' cs' :: F
termination_by g rest liga F => (rest.length, F.length)

/-- Erase the `char` fields of a forest. -/
def stripF : List LNode → List SNode
  | [] => []
  | .node g _ l cs :: rest => .node g l (stripF cs) :: stripF rest
termination_by f => sizeOf f

/-- Erase the `char` field of one node. -/
def strip1 (n : LNode) : SNode :=
  match n with
  | .node g _ l cs => .node g l (stripF cs)

/-! ### Relating the two levels -/

@[simp] theorem lnode_glyph_eval (g : Nat) (c : String) (l : Int) (cs : List LNode) :
    LNode.glyph (.node g c l cs) = g := rfl

@[simp] theorem snode_glyph_eval (g : Nat) (l : Int) (cs : List SNode) :
    SNode.glyph (.node g l cs) = g := rfl

@[simp] theorem stripF_nil : stripF [] = [] := by simp [stripF]

@[simp] theorem strip1_node (g : Nat) (c : String) (l : Int) (cs : List LNode) :
    strip1 (.node g c l cs) = .node g l (stripF cs) := rfl

@[simp] theorem stripF_cons (n : LNode) (f : List LNode) :
    stripF (n :: f) = strip1 n :: stripF f := by
  cases n
  simp [stripF, strip1]

@[simp] theorem strip1_glyph (n : LNode) : (strip1 n).glyph = n.glyph := by
  cases n
  simp [strip1]

theorem stripF_ordInsert (n : LNode) (f : List LNode) :
    stripF (ordInsert LNode.glyph n f) =
      ordInsert SNode.glyph (strip1 n) (stripF f) := by
  induction f with
  | nil => simp [ordInsert]
  | cons y ys ih =>
    simp only [ordInsert, stripF_cons, strip1_glyph]
    split
    · simp [ih]
    · simp

theorem strip1_freshChain (g : Nat) (c : String) (rest : List (Nat × String)) (liga : Int) :
    strip1 (freshChain g c rest liga) = sfresh g (rest.map Prod.fst) liga := by
  induction rest generalizing g c with
  | nil => simp [freshChain, sfresh]
  | cons p t ih =>
    obtain ⟨g', c'⟩ := p
    simp only [freshChain, sfresh, strip1_node, List.map_cons, stripF_cons, stripF_nil]
    rw [ih]

theorem stripF_addGo (g : Nat) (c : String) (rest : List (Nat × String)) (liga : Int)
    (f : List LNode) :
    stripF (addGo g c rest liga f) =
      sadd g (rest.map Prod.fst) liga (stripF f) := by
  induction g, c, rest, liga, f using addGo.induct with
  | case1 g c rest liga =>
    simp [addGo, sadd, strip1_freshChain]
  | case2 c rest liga g' c' l' cs' f ih =>
    cases rest with
    | nil => simp [addGo, sadd]
    | cons p t =>
      obtain ⟨h, hc⟩ := p
      simp only at ih
      simp [addGo, sadd, ih]
  | case3 g c rest liga g' c' l' cs' f hne ih =>
    rw [addGo.eq_def, sadd.eq_def]
    simp [hne, ih]

theorem stripF_sortForest (f : List LNode) :
    stripF (sortForest f) = ssortF (stripF f) := by
  induction f using sortForest.induct with
  | case1 => simp [sortForest, ssortF]
  | case2 g c l cs rest ihcs ihrest =>
    simp [sortForest, ssortF, stripF_ordInsert, strip1, ihcs, ihrest]

theorem sserF_stripF (f : List LNode) :
    sserF (stripF f) = serForest f := by
  induction f using serForest.induct with
  | case1 => simp [serForest, sserF]
  | case2 g c l cs rest ihcs ihrest =>
    have hlen : ∀ xs : List LNode, (stripF xs).length = xs.length := by
      intro xs
      induction xs with
      | nil => simp
      | cons a as iha => simp [iha]
    simp [serForest, sserF, strip1, ihcs, ihrest, hlen]

/-! ### The hit step and unfolding laws of `cadd` / `sadd` -/

/-- The effect of an insertion on the node whose glyph matches the path
head: set the liga (path ends here) or descend into the children. -/
def caddHit (rest : List Nat) (liga : Int) : SNode → SNode
  | .node g l cs =>
    match rest with
    | [] => .node g liga cs
    | h :: t => .node g l (cadd h t liga cs)

@[simp] theorem sfresh_glyph (g : Nat) (rest : List Nat) (liga : Int) :
    (sfresh g rest liga).glyph = g := by
  cases rest <;> simp [sfresh]

@[simp] theorem caddHit_glyph (rest : List Nat) (liga : Int) (m : SNode) :
    (caddHit rest liga m).glyph = m.glyph := by
  obtain ⟨g, l, cs⟩ := m
  cases rest <;> simp [caddHit]

theorem caddHit_nil (liga : Int) (g : Nat) (l : Int) (cs : List SNode) :
    caddHit [] liga (.node g l cs) = .node g liga cs := rfl

theorem caddHit_cons (h : Nat) (t : List Nat) (liga : Int) (g : Nat) (l : Int)
    (cs : List SNode) :
    caddHit (h :: t) liga (.node g l cs) = .node g l (cadd h t liga cs) := rfl

theorem cadd_nil (g : Nat) (rest : List Nat) (liga : Int) :
    cadd g rest liga [] = [sfresh g rest liga] := by
  rw [cadd.eq_def]

theorem cadd_cons_lt (g : Nat) (rest : List Nat) (liga : Int) (n : SNode)
    (F : List SNode) (h : n.glyph < g) :
    cadd g rest liga (n :: F) = n :: cadd g rest liga F := by
  obtain ⟨g', l', cs'⟩ := n
  simp only [snode_glyph_eval] at h
  rw [cadd.eq_def]
  simp [h]

theorem cadd_cons_eq (g : Nat) (rest : List Nat) (liga : Int) (n : SNode)
    (F : List SNode) (h : n.glyph = g) :
    cadd g rest liga (n :: F) = caddHit rest liga n :: F := by
  obtain ⟨g', l', cs'⟩ := n
  simp only [snode_glyph_eval] at h
  subst h
  rw [cadd.eq_def]
  cases rest <;> simp [caddHit]

theorem cadd_cons_gt (g : Nat) (rest : List Nat) (liga : Int) (n : SNode)
    (F : List SNode) (h : g < n.glyph) :
    cadd g rest liga (n :: F) = sfresh g rest liga :: n :: F := by
  obtain ⟨g', l', cs'⟩ := n
  simp only [snode_glyph_eval] at h
  rw [cadd.eq_def]
  have h1 : ¬ g' < g := by omega
  have h2 : ¬ g' = g := by omega
  simp [h1, h2]

theorem sadd_nil (g : Nat) (rest : List Nat) (liga : Int) :
    sadd g rest liga [] = [sfresh g rest liga] := by
  rw [sadd.eq_def]

theorem sadd_cons_eq (g : Nat) (rest : List Nat) (liga : Int) (l' : Int)
    (cs' : List SNode) (f : List SNode) :
    sadd g rest liga (.node g l' cs' :: f) =
      (match rest with
       | [] => SNode.node g liga cs'
       | h :: t => SNode.node g l' (sadd h t liga cs')) :: f := by
  rw [sadd.eq_def]
  simp

theorem sadd_cons_ne (g : Nat) (rest : List Nat) (liga : Int) (n : SNode)
    (f : List SNode) (h : n.glyph ≠ g) :
    sadd g rest liga (n :: f) = n :: sadd g rest liga f := by
  obtain ⟨g', l', cs'⟩ := n
  simp only [snode_glyph_eval] at h
  rw [sadd.eq_def]
  simp [h]

/-- A freshly created chain is already sorted: sorting its singleton forest
is the identity. -/
theorem ssortF_sfresh (g : Nat) (rest : List Nat) (liga : Int) :
    ssortF [sfresh g rest liga] = [sfresh g rest liga] := by
  induction rest generalizing g with
  | nil => simp [sfresh, ssortF, ordInsert]
  | cons h t ih => simp [sfresh, ssortF, ordInsert, ih]

/-! ### `cadd` against `ordInsert` (the two interaction laws) -/

theorem ordInsert_cons_lt {α : Type} (key : α → Nat) (x y : α) (ys : List α)
    (h : key y < key x) :
    ordInsert key x (y :: ys) = y :: ordInsert key x ys := by
  simp [ordInsert, h]

theorem ordInsert_cons_ge {α : Type} (key : α → Nat) (x y : α) (ys : List α)
    (h : ¬ key y < key x) :
    ordInsert key x (y :: ys) = x :: y :: ys := by
  simp [ordInsert, h]

/-- Inserting a path whose head glyph equals the glyph of the element being
ordered in: the insertion lands exactly on that element. -/
theorem cadd_ordInsert_hit (g : Nat) (rest : List Nat) (liga : Int) (m : SNode)
    (S : List SNode) (hm : m.glyph = g) :
    cadd g rest liga (ordInsert SNode.glyph m S) =
      ordInsert SNode.glyph (caddHit rest liga m) S := by
  induction S with
  | nil =>
    simp only [ordInsert]
    rw [cadd_cons_eq g rest liga m [] hm]
  | cons s S' ih =>
    by_cases hlt : SNode.glyph s < SNode.glyph m
    · rw [ordInsert_cons_lt _ _ _ _ hlt,
        ordInsert_cons_lt _ _ _ _ (by simpa using hlt),
        cadd_cons_lt g rest liga s _ (by omega), ih]
    · rw [ordInsert_cons_ge _ _ _ _ hlt,
        ordInsert_cons_ge _ _ _ _ (by simpa using hlt),
        cadd_cons_eq g rest liga m _ hm]

/-- Inserting a path whose head glyph differs from the glyph of the element
being ordered in: the two insertions commute. -/
theorem cadd_ordInsert_ne (g : Nat) (rest : List Nat) (liga : Int) (m : SNode)
    (S : List SNode) (hne : m.glyph ≠ g) :
    cadd g rest liga (ordInsert SNode.glyph m S) =
      ordInsert SNode.glyph m (cadd g rest liga S) := by
  induction S with
  | nil =>
    simp only [ordInsert]
    rw [cadd_nil]
    rcases Nat.lt_or_ge m.glyph g with h1 | h1
    · rw [cadd_cons_lt g rest liga m _ h1, cadd_nil,
        ordInsert_cons_ge _ _ _ _ (by simp only [sfresh_glyph]; omega)]
    · have hgm : g < m.glyph := by omega
      rw [cadd_cons_gt g rest liga m _ hgm,
        ordInsert_cons_lt _ _ _ _ (by simp only [sfresh_glyph]; omega)]
      simp only [ordInsert]
  | cons s S' ih =>
    by_cases hsm : SNode.glyph s < SNode.glyph m
    · rw [ordInsert_cons_lt _ _ _ _ hsm]
      rcases Nat.lt_trichotomy (SNode.glyph s) g with h1 | h1 | h1
      · rw [cadd_cons_lt g rest liga s _ h1, ih,
          cadd_cons_lt g rest liga s _ h1,
          ordInsert_cons_lt _ _ _ _ hsm]
      · rw [cadd_cons_eq g rest liga s _ h1,
          cadd_cons_eq g rest liga s _ h1,
          ordInsert_cons_lt _ _ _ _ (by simpa using hsm)]
      · rw [cadd_cons_gt g rest liga s _ h1,
          cadd_cons_gt g rest liga s _ h1,
          ordInsert_cons_lt _ _ _ _
            (show SNode.glyph (sfresh g rest liga) < SNode.glyph m by
              simp only [sfresh_glyph]; omega),
          ordInsert_cons_lt _ _ _ _ hsm]
    · rw [ordInsert_cons_ge _ _ _ _ hsm]
      rcases Nat.lt_or_ge m.glyph g with h1 | h1
      · rw [cadd_cons_lt g rest liga m _ h1]
        rcases Nat.lt_trichotomy (SNode.glyph s) g with h2 | h2 | h2
        · rw [cadd_cons_lt g rest liga s _ h2,
            ordInsert_cons_ge _ _ _ _ hsm]
        · rw [cadd_cons_eq g rest liga s _ h2,
            ordInsert_cons_ge _ _ _ _ (by simpa using hsm)]
        · rw [cadd_cons_gt g rest liga s _ h2,
            ordInsert_cons_ge _ _ _ _
              (show ¬ SNode.glyph (sfresh g rest liga) < SNode.glyph m by
                simp only [sfresh_glyph]; omega)]
      · have hgm : g < m.glyph := by omega
        have hgs : g < SNode.glyph s := by omega
        rw [cadd_cons_gt g rest liga m _ hgm,
          cadd_cons_gt g rest liga s _ hgs,
          ordInsert_cons_lt _ _ _ _
            (show SNode.glyph (sfresh g rest liga) < SNode.glyph m by
              simp only [sfresh_glyph]; omega),
          ordInsert_cons_ge _ _ _ _ hsm]

@[simp] theorem ssortF_nil : ssortF [] = [] := by simp [ssortF]

theorem ssortF_cons (g : Nat) (l : Int) (cs rest : List SNode) :
    ssortF (.node g l cs :: rest) =
      ordInsert SNode.glyph (.node g l (ssortF cs)) (ssortF rest) := by
  rw [ssortF]

/-- Bridge: building unsorted (Python `add_node`) and sorting afterwards is
inserting into the sorted forest directly. -/
theorem ssortF_sadd (g : Nat) (rest : List Nat) (liga : Int) (f : List SNode) :
    ssortF (sadd g rest liga f) = cadd g rest liga (ssortF f) := by
  induction g, rest, liga, f using sadd.induct with
  | case1 g rest liga =>
    rw [sadd_nil, ssortF_nil, cadd_nil, ssortF_sfresh]
  | case2 rest liga g' l' cs' f ih =>
    cases rest with
    | nil =>
      rw [sadd_cons_eq, ssortF_cons, ssortF_cons,
        cadd_ordInsert_hit g' [] liga _ _ (by simp), caddHit_nil]
    | cons h t =>
      simp only at ih
      rw [sadd_cons_eq, ssortF_cons, ssortF_cons,
        cadd_ordInsert_hit g' (h :: t) liga _ _ (by simp), caddHit_cons, ih]
  | case3 g rest liga g' l' cs' f hne ih =>
    rw [sadd_cons_ne g rest liga _ f (by simpa using hne), ssortF_cons, ssortF_cons,
      cadd_ordInsert_ne g rest liga _ _ (by simpa using hne), ih]

/-! ### Commutation of two canonical insertions -/

theorem caddHit_sfresh_comm (g : Nat) (r1 : List Nat) (l1 : Int) (r2 : List Nat)
    (l2 : Int) (hco : r1 = r2 → l1 = l2)
    (hrec : ∀ h1 t1 h2 t2, r1 = h1 :: t1 → r2 = h2 :: t2 →
      cadd h1 t1 l1 (cadd h2 t2 l2 []) = cadd h2 t2 l2 (cadd h1 t1 l1 [])) :
    caddHit r1 l1 (sfresh g r2 l2) = caddHit r2 l2 (sfresh g r1 l1) := by
  cases r1 with
  | nil =>
    cases r2 with
    | nil => rw [hco rfl]
    | cons h2 t2 => simp [sfresh, caddHit_nil, caddHit_cons, cadd_nil]
  | cons h1 t1 =>
    cases r2 with
    | nil => simp [sfresh, caddHit_nil, caddHit_cons, cadd_nil]
    | cons h2 t2 =>
      simp only [sfresh, caddHit_cons]
      rw [← cadd_nil h2 t2 l2, ← cadd_nil h1 t1 l1, hrec h1 t1 h2 t2 rfl rfl]

theorem caddHit_caddHit_comm (g : Nat) (lv : Int) (cs : List SNode) (r1 : List Nat)
    (l1 : Int) (r2 : List Nat) (l2 : Int) (hco : r1 = r2 → l1 = l2)
    (hrec : ∀ h1 t1 h2 t2, r1 = h1 :: t1 → r2 = h2 :: t2 →
      cadd h1 t1 l1 (cadd h2 t2 l2 cs) = cadd h2 t2 l2 (cadd h1 t1 l1 cs)) :
    caddHit r1 l1 (caddHit r2 l2 (.node g lv cs)) =
      caddHit r2 l2 (caddHit r1 l1 (.node g lv cs)) := by
  cases r1 with
  | nil =>
    cases r2 with
    | nil => rw [hco rfl]
    | cons h2 t2 => simp [caddHit_nil, caddHit_cons]
  | cons h1 t1 =>
    cases r2 with
    | nil => simp [caddHit_nil, caddHit_cons]
    | cons h2 t2 =>
      simp only [caddHit_cons]
      rw [hrec h1 t1 h2 t2 rfl rfl]

/-- Two canonical insertions into the same forest commute, provided that
when the two paths coincide the inserted liga values agree. -/
theorem cadd_comm_aux : ∀ (n : Nat) (g1 : Nat) (r1 : List Nat) (l1 : Int)
    (g2 : Nat) (r2 : List Nat) (l2 : Int) (S : List SNode),
    r1.length + r2.length ≤ n → (g1 = g2 → r1 = r2 → l1 = l2) →
    cadd g1 r1 l1 (cadd g2 r2 l2 S) = cadd g2 r2 l2 (cadd g1 r1 l1 S) := by
  intro n
  induction n using Nat.strong_induction_on with
  | _ n IH =>
  intro g1 r1 l1 g2 r2 l2 S hn hco
  induction S with
  | nil =>
    rw [cadd_nil, cadd_nil]
    rcases Nat.lt_trichotomy g1 g2 with hg | rfl | hg
    · rw [cadd_cons_gt g1 r1 l1 (sfresh g2 r2 l2) _ (by simpa using hg),
        cadd_cons_lt g2 r2 l2 (sfresh g1 r1 l1) _ (by simpa using hg),
        cadd_nil]
    · rw [cadd_cons_eq g1 r1 l1 (sfresh g1 r2 l2) _ (by simp),
        cadd_cons_eq g1 r2 l2 (sfresh g1 r1 l1) _ (by simp)]
      have hrec : ∀ h1 t1 h2 t2, r1 = h1 :: t1 → r2 = h2 :: t2 →
          cadd h1 t1 l1 (cadd h2 t2 l2 []) = cadd h2 t2 l2 (cadd h1 t1 l1 []) := by
        intro h1 t1 h2 t2 e1 e2
        refine IH (t1.length + t2.length) ?_ h1 t1 l1 h2 t2 l2 [] (le_refl _) ?_
        · subst e1
          subst e2
          simp only [List.length_cons] at hn
          omega
        · intro hh ht
          exact hco rfl (by rw [e1, e2, hh, ht])
      rw [caddHit_sfresh_comm g1 r1 l1 r2 l2 (hco rfl) hrec]
    · rw [cadd_cons_lt g1 r1 l1 (sfresh g2 r2 l2) _ (by simpa using hg),
        cadd_cons_gt g2 r2 l2 (sfresh g1 r1 l1) _ (by simpa using hg),
        cadd_nil]
  | cons s S' ihS =>
    obtain ⟨gs, ls, css⟩ := s
    rcases Nat.lt_trichotomy gs g2 with h2 | rfl | h2
    · -- gs < g2 : the second insertion walks past the head node
      rw [cadd_cons_lt g2 r2 l2 (SNode.node gs ls css) S' (by simpa using h2)]
      rcases Nat.lt_trichotomy gs g1 with h1 | rfl | h1
      · rw [cadd_cons_lt g1 r1 l1 (SNode.node gs ls css) _ (by simpa using h1),
          cadd_cons_lt g1 r1 l1 (SNode.node gs ls css) S' (by simpa using h1),
          cadd_cons_lt g2 r2 l2 (SNode.node gs ls css) _ (by simpa using h2),
          ihS]
      · rw [cadd_cons_eq gs r1 l1 (SNode.node gs ls css) _ (by simp),
          cadd_cons_eq gs r1 l1 (SNode.node gs ls css) S' (by simp),
          cadd_cons_lt g2 r2 l2 (caddHit r1 l1 (SNode.node gs ls css)) S'
            (by simpa using h2)]
      · rw [cadd_cons_gt g1 r1 l1 (SNode.node gs ls css) _ (by simpa using h1),
          cadd_cons_gt g1 r1 l1 (SNode.node gs ls css) S' (by simpa using h1),
          cadd_cons_lt g2 r2 l2 (sfresh g1 r1 l1) _ (by simp; omega),
          cadd_cons_lt g2 r2 l2 (SNode.node gs ls css) S' (by simpa using h2)]
    · -- gs = g2 : the second insertion hits the head node
      rw [cadd_cons_eq gs r2 l2 (SNode.node gs ls css) S' (by simp)]
      rcases Nat.lt_trichotomy gs g1 with h1 | rfl | h1
      · rw [cadd_cons_lt g1 r1 l1 (caddHit r2 l2 (SNode.node gs ls css)) S'
            (by simpa using h1),
          cadd_cons_lt g1 r1 l1 (SNode.node gs ls css) S' (by simpa using h1),
          cadd_cons_eq gs r2 l2 (SNode.node gs ls css) _ (by simp)]
      · rw [cadd_cons_eq gs r1 l1 (caddHit r2 l2 (SNode.node gs ls css)) S'
            (by simp),
          cadd_cons_eq gs r1 l1 (SNode.node gs ls css) S' (by simp),
          cadd_cons_eq gs r2 l2 (caddHit r1 l1 (SNode.node gs ls css)) S'
            (by simp)]
        have hrec : ∀ h1 t1 h2 t2, r1 = h1 :: t1 → r2 = h2 :: t2 →
            cadd h1 t1 l1 (cadd h2 t2 l2 css) = cadd h2 t2 l2 (cadd h1 t1 l1 css) := by
          intro h1 t1 h2 t2 e1 e2
          refine IH (t1.length + t2.length) ?_ h1 t1 l1 h2 t2 l2 css (le_refl _) ?_
          · subst e1
            subst e2
            simp only [List.length_cons] at hn
            omega
          · intro hh ht
            exact hco rfl (by rw [e1, e2, hh, ht])
        rw [caddHit_caddHit_comm gs ls css r1 l1 r2 l2 (hco rfl) hrec]
      · rw [cadd_cons_gt g1 r1 l1 (caddHit r2 l2 (SNode.node gs ls css)) S'
            (by simpa using h1),
          cadd_cons_gt g1 r1 l1 (SNode.node gs ls css) S' (by simpa using h1),
          cadd_cons_lt gs r2 l2 (sfresh g1 r1 l1) _ (by simpa using h1),
          cadd_cons_eq gs r2 l2 (SNode.node gs ls css) S' (by simp)]
    · -- g2 < gs : the second insertion creates a fresh node before the head
      rw [cadd_cons_gt g2 r2 l2 (SNode.node gs ls css) S' (by simpa using h2)]
      rcases Nat.lt_trichotomy g1 g2 with hx | rfl | hx
      · rw [cadd_cons_gt g1 r1 l1 (sfresh g2 r2 l2) _ (by simpa using hx),
          cadd_cons_gt g1 r1 l1 (SNode.node gs ls css) S' (by simp; omega),
          cadd_cons_lt g2 r2 l2 (sfresh g1 r1 l1) _ (by simpa using hx),
          cadd_cons_gt g2 r2 l2 (SNode.node gs ls css) S' (by simpa using h2)]
      · rw [cadd_cons_eq g1 r1 l1 (sfresh g1 r2 l2) _ (by simp),
          cadd_cons_gt g1 r1 l1 (SNode.node gs ls css) S' (by simpa using h2),
          cadd_cons_eq g1 r2 l2 (sfresh g1 r1 l1) _ (by simp)]
        have hrec : ∀ h1 t1 h2 t2, r1 = h1 :: t1 → r2 = h2 :: t2 →
            cadd h1 t1 l1 (cadd h2 t2 l2 []) = cadd h2 t2 l2 (cadd h1 t1 l1 []) := by
          intro h1 t1 h2 t2 e1 e2
          refine IH (t1.length + t2.length) ?_ h1 t1 l1 h2 t2 l2 [] (le_refl _) ?_
          · subst e1
            subst e2
            simp only [List.length_cons] at hn
            omega
          · intro hh ht
            exact hco rfl (by rw [e1, e2, hh, ht])
        rw [caddHit_sfresh_comm g1 r1 l1 r2 l2 (hco rfl) hrec]
      · rcases Nat.lt_trichotomy g1 gs with hy | rfl | hy
        · rw [cadd_cons_lt g1 r1 l1 (sfresh g2 r2 l2) _ (by simpa using hx),
            cadd_cons_gt g1 r1 l1 (SNode.node gs ls css) S' (by simpa using hy),
            cadd_cons_gt g2 r2 l2 (sfresh g1 r1 l1) _ (by simpa using hx)]
        · rw [cadd_cons_lt g1 r1 l1 (sfresh g2 r2 l2) _ (by simpa using hx),
            cadd_cons_eq g1 r1 l1 (SNode.node g1 ls css) S' (by simp),
            cadd_cons_gt g2 r2 l2 (caddHit r1 l1 (SNode.node g1 ls css)) S'
              (by simpa using hx)]
        · rw [cadd_cons_lt g1 r1 l1 (sfresh g2 r2 l2) _ (by simpa using hx),
            cadd_cons_lt g1 r1 l1 (SNode.node gs ls css) S' (by simpa using hy),
            cadd_cons_gt g2 r2 l2 (SNode.node gs ls css) (cadd g1 r1 l1 S')
              (by simpa using h2)]

/-! ### Folding all rules, and permutation invariance -/

/-- A ligature rule with its component names resolved to glyph ids. -/
def idRule (m : String → Nat) (r : List String × Int) : List Nat × Int :=
  (r.1.map m, r.2)

/-- One canonical insertion step over `Option` (`none` = the build already
failed on a rule with no components). -/
def cstep (oF : Option (List SNode)) (r : List Nat × Int) : Option (List SNode) :=
  oF.bind fun F =>
    match r.1 with
    | [] => none
    | g :: t => some (cadd g t r.2 F)

@[simp] theorem cstep_none (r : List Nat × Int) : cstep none r = none := rfl

@[simp] theorem length_ordInsert {α : Type} (key : α → Nat) (x : α) (l : List α) :
    (ordInsert key x l).length = l.length + 1 := by
  induction l with
  | nil => simp [ordInsert]
  | cons y ys ih =>
    simp only [ordInsert]
    split <;> simp [ih]

@[simp] theorem length_stripF (f : List LNode) : (stripF f).length = f.length := by
  induction f with
  | nil => simp
  | cons n f ih => simp [ih]

@[simp] theorem length_sortForest (f : List LNode) :
    (sortForest f).length = f.length := by
  induction f using sortForest.induct with
  | case1 => simp [sortForest]
  | case2 g c l cs rest ihcs ihrest => simp [sortForest, ihrest]

@[simp] theorem length_ssortF (f : List SNode) : (ssortF f).length = f.length := by
  induction f using ssortF.induct with
  | case1 => simp
  | case2 g l cs rest ihcs ihrest => simp [ssortF_cons, ihrest]

/-- Building the whole forest and then sorting it recursively equals folding
the rules with canonical insertions, after erasing the dead `char` field. -/
theorem build_forest_fold (ligas : List (List String × Int)) (m : String → Nat) :
    ∀ of : Option (List LNode),
    (ligas.foldl
        (fun of r => of.bind (add_node (r.1.map (fun ch => (m ch, ch))) r.2))
        of).map (fun f => ssortF (stripF f)) =
      (ligas.map (idRule m)).foldl cstep (of.map (fun f => ssortF (stripF f))) := by
  induction ligas with
  | nil => intro of; rfl
  | cons r rs ih =>
    intro of
    rw [List.map_cons, List.foldl_cons, List.foldl_cons, ih]
    congr 1
    cases of with
    | none => rfl
    | some f =>
      cases hr : r.1 with
      | nil => simp [add_node, hr, cstep, idRule]
      | cons ch chs =>
        simp only [add_node, hr, List.map_cons, cstep, idRule, Option.map_some',
          Option.some_bind]
        rw [stripF_addGo, ssortF_sadd]
        have hmap : (List.map (fun ch => (m ch, ch)) chs).map Prod.fst = chs.map m := by
          simp [List.map_map, Function.comp]
        rw [hmap]

/-- `write_ligas` expressed over id-level rules with canonical insertion:
the forest produced by folding `cstep` is already sorted. -/
def swrite_ligas (rules : List (List Nat × Int)) : Option (List Nat) :=
  (rules.foldl cstep (some [])).map (fun F =>
    packU16 0 ++ packI32 (-1) ++ packU16 F.length ++ sserF F)

theorem write_ligas_eq_swrite (ligas : List (List String × Int)) (m : String → Nat) :
    write_ligas ligas m = swrite_ligas (ligas.map (idRule m)) := by
  have hfold := build_forest_fold ligas m (some [])
  unfold write_ligas swrite_ligas build_forest
  rw [show (Option.map (fun f => ssortF (stripF f)) (some ([] : List LNode))) =
      some ([] : List SNode) by simp] at hfold
  rw [← hfold]
  cases hb : List.foldl
      (fun of r => of.bind (add_node (List.map (fun ch => (m ch, ch)) r.1) r.2))
      (some []) ligas with
  | none => rfl
  | some f =>
    simp only [Option.map_some']
    have h1 : serForest (sortForest f) = sserF (ssortF (stripF f)) := by
      rw [← stripF_sortForest, sserF_stripF]
    have h2 : (sortForest f).length = (ssortF (stripF f)).length := by
      simp
    rw [h1, h2]

/-- Permutation invariance at the id-rule level. -/
theorem swrite_ligas_perm (rules1 rules2 : List (List Nat × Int))
    (hperm : rules1.Perm rules2)
    (hco : ∀ r1 ∈ rules1, ∀ r2 ∈ rules1, r1.1 = r2.1 → r1.2 = r2.2) :
    swrite_ligas rules1 = swrite_ligas rules2 := by
  unfold swrite_ligas
  rw [hperm.foldl_eq' ?_]
  intro r1 h1 r2 h2 oF
  cases oF with
  | none => simp
  | some F =>
    cases e1 : r1.1 with
    | nil =>
      cases e2 : r2.1 with
      | nil => simp [cstep, e1, e2]
      | cons g2 t2 => simp [cstep, e1, e2]
    | cons g1 t1 =>
      cases e2 : r2.1 with
      | nil => simp [cstep, e1, e2]
      | cons g2 t2 =>
        simp only [cstep, Option.some_bind, e1, e2]
        rw [cadd_comm_aux (t1.length + t2.length) g1 t1 r1.2 g2 t2 r2.2 F (le_refl _)]
        intro hg ht
        exact hco r1 h1 r2 h2 (by rw [e1, e2, hg, ht])

/-! ## `write_glyphs` and `parse_otf` (otf2clm.py lines 503–653)

The remaining writers are faithful transcriptions of lines 503–583; the
in-memory model a conversion run produces (`FontModel`) carries the data
`parse_otf` extracts before writing.  Glyph metrics appear as integers
(the `int(v)` truncation of the library's fixed-point values happens while
reading); per-glyph kerning is the single-use iterator `read_kern`
returned. -/

/-- One part of a glyph assembly, `(glyph_name, flag, start_connector_length,
end_connector_length, full_advance)`: the name, then the remaining numeric
fields in tuple order (written generically by `for v in part[1:]`). -/
structure AsmPart where
  name : String
  fields : List Nat

/-- The per-glyph math record read by `read_math` (tuple positions 0–7). -/
structure MathRec where
  italic : Int
  topaccent : Int
  hvariants : List String
  vvariants : List String
  svariants : List String
  hassembly : Int × List AsmPart
  vassembly : Int × List AsmPart
  mathkern : List (Option (List (Int × Int)))

/-- One glyph as read by `read_glyph`: metrics, the (single-use) kerning
iterator, optional math record, optional outline path, name.  `parse_otf`
populates `math` exactly when the font is a math font and `path` exactly
when paths are requested. -/
structure GlyphRec where
  metrics : Int × Int × Int
  kerns : PyIter (String × Int)
  math : Option MathRec
  path : Option (List PathCmd)
  name : String

/-- `write_math_consts` (lines 503–505). -/
def write_math_consts (consts : List Int) : List Nat :=
  consts.flatMap packI16

/-- `write_variants` (lines 527–534): count then resolved glyph ids. -/
def write_variants (variants : List String) (m : String → Nat) : List Nat :=
  packU16 variants.length ++ variants.flatMap (fun v => packU16 (m v))

/-- `write_glyph_assembly` (lines 536–546): presence flag; if present, part
count, italics correction, then per part the resolved id and its numeric
fields. -/
def write_glyph_assembly (assembly : Int × List AsmPart) (m : String → Nat) :
    List Nat :=
  match assembly.2 with
  | [] => packBool false
  | parts =>
    packBool true ++ packU16 parts.length ++ packI16 assembly.1 ++
      parts.flatMap (fun p => packU16 (m p.name) ++ p.fields.flatMap packU16)

/-- `write_math_kern` (lines 548–555): per corner, count 0 when absent,
else count then (correction height, kerning) pairs. -/
def write_math_kern (math_kerns : List (Option (List (Int × Int)))) : List Nat :=
  math_kerns.flatMap (fun i =>
    match i with
    | none => packU16 0
    | some ks => packU16 ks.length ++ ks.flatMap (fun k => packI16 k.1 ++ packI16 k.2))

/-- `write_math` (lines 557–565). -/
def write_math (math : MathRec) (m : String → Nat) : List Nat :=
  packI16 math.italic ++ packI16 math.topaccent ++
    write_variants math.hvariants m ++ write_variants math.vvariants m ++
    write_variants math.svariants m ++
    write_glyph_assembly math.hassembly m ++ write_glyph_assembly math.vassembly m ++
    write_math_kern math.mathkern

/-- `write_path` (lines 567–574): command count, then per command the ASCII
opcode byte and its operands as signed 16-bit values. -/
def write_path (path : List PathCmd) : List Nat :=
  packU16 path.length ++
    path.flatMap (fun cmd => packChar cmd.1 ++ cmd.2.flatMap packI16)

/-- `write_glyphs` (lines 508–582): glyph count, then per glyph metrics,
kerning, math record (math fonts only), path (when paths are enabled). -/
def write_glyphs (glyphs : List GlyphRec) (glyph_name_id_map : String → Nat)
    (is_math_font have_glyph_path : Bool) : List Nat :=
  packU16 glyphs.length ++
    glyphs.flatMap (fun g =>
      packI16 g.metrics.1 ++ packI16 g.metrics.2.1 ++ packI16 g.metrics.2.2 ++
        write_kerns g.kerns glyph_name_id_map ++
        (if is_math_font then
          match g.math with
          | some rec => write_math rec glyph_name_id_map
          | none => []  -- unreachable: read_glyph fills math for math fonts
         else []) ++
        (if have_glyph_path then
          match g.path with
          | some p => write_path p
          | none => []  -- unreachable: read_glyph fills path when requested
         else []))

/-- The in-memory model `parse_otf` has extracted when it starts writing. -/
structure FontModel where
  is_math_font : Bool
  have_glyph_path : Bool
  em : Nat
  xheight : Nat
  ascent : Nat
  descent : Nat
  math_consts : List Int
  unicode_glyph_map : List (Nat × Nat)
  kern_class_tables : PyIter KClassTable
  ligas : List (List String × Int)
  glyph_name_id_map : String → Nat
  glyphs : List GlyphRec

/-- The fixed file header written at lines 633–644: magic `c`,`l`,`m`,
major version 2 (`!H`), minor version (`B`, 2 with paths else 1), math-font
flag (`?`), then em, x-height, ascent, descent (`!H` each). -/
def clm_header (is_math_font have_glyph_path : Bool)
    (em xheight ascent descent : Nat) : List Nat :=
  packChar 'c' ++ packChar 'l' ++ packChar 'm' ++
    packU16 2 ++
    [if have_glyph_path then 2 else 1] ++
    packBool is_math_font ++
    packU16 em ++ packU16 xheight ++ packU16 ascent ++ packU16 descent

/-- The bytes `parse_otf` writes to the output file (lines 632–651), paired
with whether the run completed without raising: header, unicode map,
kerning class tables, ligature trie, math constants (math fonts only),
glyph array.  A failure inside `write_ligas` leaves the bytes written so
far in the file. -/
def clm_output (fm : FontModel) : List Nat × Bool :=
  let kc := write_clm_kerning_class fm.kern_class_tables
  let pre := clm_header fm.is_math_font fm.have_glyph_path
      fm.em fm.xheight fm.ascent fm.descent ++
    write_clm_unicode_glyph_map fm.unicode_glyph_map ++ kc.1
  if kc.2 = false then (pre, false)
  else
    match write_ligas fm.ligas fm.glyph_name_id_map with
    | none => (pre, false)
    | some lb =>
      (pre ++ lb ++
        (if fm.is_math_font then write_math_consts fm.math_consts else []) ++
        write_glyphs fm.glyphs fm.glyph_name_id_map
          fm.is_math_font fm.have_glyph_path, true)

/-! ## `main` (otf2clm.py lines 667–674)

```python
def main():
    if len(sys.argv) < 4:
        print(usage)
        return
    parse_otf(
        sys.argv[1], sys.argv[2] == 'true',
        sys.argv[3] == 'true', sys.argv[4]
    )
```
`sys.argv[0]` is the script path; the four user arguments sit at indices
1–4.  When `len(sys.argv) == 4` the guard does not fire and `sys.argv[4]`
raises `IndexError`. -/

/-- What one invocation of `main` does. -/
inductive MainResult : Type where
  /-- the usage text is printed and `main` returns -/
  | usage : MainResult
  /-- `sys.argv[4]` raised `IndexError` -/
  | indexError : MainResult
  /-- `parse_otf(font, is_math_font, parse_paths, output)` is invoked -/
  | run (font : String) (is_math_font : Bool) (parse_paths : Bool)
      (output : String) : MainResult

/-- `main`, as a function of `sys.argv`. -/
def main_model (argv : List String) : MainResult :=
  if argv.length < 4 then .usage
  else
    match argv[4]? with
    | none => .indexError
    | some out =>
      .run (argv.getD 1 "") (argv.getD 2 "" == "true") (argv.getD 3 "" == "true") out

/-! ## Properties of the kerning-class value elision (`kc_values`) -/

theorem kc_values_append (C : Nat) (v w : List Int) :
    ∀ i, kc_values C i (v ++ w) = kc_values C i v ++ kc_values C (i + v.length) w := by
  induction v with
  | nil => intro i; simp [kc_values]
  | cons x v' ih =>
    intro i
    simp only [List.cons_append, kc_values, List.append_eq]
    split
    · rw [ih (i + 1)]
      simp only [List.length_cons]
      congr 2
      omega
    · rw [ih (i + 1)]
      simp only [List.length_cons, List.cons_append]
      congr 3
      omega

theorem kc_values_all_skip (C : Nat) (v : List Int) :
    ∀ i, i + v.length ≤ C → kc_values C i v = [] := by
  induction v with
  | nil => intro i _; rfl
  | cons x v' ih =>
    intro i hi
    simp only [List.length_cons] at hi
    simp only [kc_values]
    rw [if_pos (Or.inl (by omega))]
    exact ih (i + 1) (by omega)

theorem kc_values_keep_all (C : Nat) (v : List Int) :
    ∀ s, C ≤ s → (∀ k, k < v.length → (s + k) % C ≠ 0) → kc_values C s v = v := by
  induction v with
  | nil => intro s _ _; rfl
  | cons x v' ih =>
    intro s hs hk
    simp only [kc_values]
    rw [if_neg (by
      push_neg
      refine ⟨by omega, ?_⟩
      have := hk 0 (by simp)
      simpa using this)]
    congr 1
    refine ih (s + 1) (by omega) ?_
    intro k hkk
    have := hk (k + 1) (by simp; omega)
    convert this using 2
    omega

/-- One full row of the matrix at row index `a`: row 0 is skipped entirely,
every other row loses exactly its first (column-0) cell. -/
theorem kc_values_row (C : Nat) (a : Nat) (v : List Int) (hC : 1 ≤ C)
    (hv : v.length = C) :
    kc_values C (a * C) v = if a = 0 then [] else v.drop 1 := by
  rcases Nat.eq_zero_or_pos a with rfl | ha
  · simp only [Nat.zero_mul, if_pos rfl]
    exact kc_values_all_skip C v 0 (by omega)
  · rw [if_neg (by omega)]
    cases v with
    | nil => simp at hv; omega
    | cons x v' =>
      simp only [kc_values]
      rw [if_pos (Or.inr (by simp [Nat.mul_mod_left]))]
      simp only [List.drop_succ_cons, List.drop_zero]
      refine kc_values_keep_all C v' (a * C + 1) (by nlinarith) ?_
      intro k hk
      simp only [List.length_cons] at hv
      have h1 : a * C + 1 + k = a * C + (1 + k) := by omega
      rw [h1, Nat.add_comm (a * C) (1 + k), Nat.add_mul_mod_self_right]
      have h2 : 1 + k < C := by omega
      rw [Nat.mod_eq_of_lt h2]
      omega

theorem flatMap_congr_mem {α β : Type} (l : List α) (f g : α → List β)
    (h : ∀ x ∈ l, f x = g x) : l.flatMap f = l.flatMap g := by
  induction l with
  | nil => rfl
  | cons x xs ih =>
    simp only [List.flatMap_cons]
    rw [h x (by simp), ih (fun y hy => h y (by simp [hy]))]

/-- Row decomposition of the emitted value block starting at row `a`. -/
theorem kc_values_rows (C : Nat) (hC : 1 ≤ C) :
    ∀ (R a : Nat) (v : List Int), v.length = R * C →
    kc_values C (a * C) v =
      (List.range R).flatMap
        (fun r => if a + r = 0 then [] else ((v.drop (r * C)).take C).drop 1) := by
  intro R
  induction R with
  | zero =>
    intro a v hv
    simp only [Nat.zero_mul, List.length_eq_zero] at hv
    subst hv
    rfl
  | succ R ih =>
    intro a v hv
    have hlen : C ≤ v.length := by
      rw [hv]
      nlinarith
    have hsplit : v = v.take C ++ v.drop C := (List.take_append_drop C v).symm
    have htake : (v.take C).length = C := by
      rw [List.length_take]
      omega
    have hdrop : (v.drop C).length = R * C := by
      rw [List.length_drop, hv]
      ring_nf
      omega
    conv_lhs => rw [hsplit]
    rw [kc_values_append, htake, kc_values_row C a (v.take C) hC htake]
    have hstep : a * C + C = (a + 1) * C := by ring
    rw [hstep, ih (a + 1) (v.drop C) hdrop]
    rw [List.range_succ_eq_map, List.flatMap_cons]
    have h0 : (if a + 0 = 0 then [] else ((v.drop (0 * C)).take C).drop 1) =
        (if a = 0 then [] else (v.take C).drop 1) := by
      simp
    rw [h0]
    congr 1
    have hmapf : ∀ f : Nat → List Int,
        ((List.range R).map Nat.succ).flatMap f =
          (List.range R).flatMap (fun r => f (r + 1)) := by
      intro f
      induction (List.range R) with
      | nil => rfl
      | cons y ys ihy => simp [List.flatMap_cons, ihy, Nat.succ_eq_add_one]
    rw [hmapf]
    refine flatMap_congr_mem _ _ _ ?_
    intro r hr
    have h1 : a + 1 + r = a + (r + 1) := by omega
    have h2 : (v.drop C).drop (r * C) = v.drop ((r + 1) * C) := by
      rw [List.drop_drop]
      congr 1
      ring
    rw [h1, h2]

/-- Length of the block emitted from row `a ≥ 1` on: every row contributes
`C - 1` cells. -/
theorem kc_values_length_from (C : Nat) (hC : 1 ≤ C) :
    ∀ (R a : Nat) (v : List Int), v.length = R * C → 1 ≤ a →
    (kc_values C (a * C) v).length = R * (C - 1) := by
  intro R
  induction R with
  | zero =>
    intro a v hv _
    simp only [Nat.zero_mul, List.length_eq_zero] at hv
    subst hv
    simp [kc_values]
  | succ R ih =>
    intro a v hv ha
    have hlen : C ≤ v.length := by
      rw [hv]
      nlinarith
    have htake : (v.take C).length = C := by
      rw [List.length_take]
      omega
    have hdrop : (v.drop C).length = R * C := by
      rw [List.length_drop, hv]
      ring_nf
      omega
    conv_lhs => rw [(List.take_append_drop C v).symm]
    rw [kc_values_append, htake, kc_values_row C a (v.take C) hC htake,
      if_neg (by omega)]
    have hstep : a * C + C = (a + 1) * C := by ring
    rw [hstep]
    simp only [List.length_append, List.length_drop, htake,
      ih (a + 1) (v.drop C) hdrop (by omega)]
    ring

/-! ## The mirror step is an involution -/

@[simp] theorem neg_at_length (l : List Int) : ∀ i, (neg_at l i).length = l.length := by
  induction l with
  | nil => intro i; rfl
  | cons x xs ih =>
    intro i
    cases i with
    | zero => rfl
    | succ j => simp [neg_at, ih]

theorem neg_at_invol (l : List Int) : ∀ i, i < l.length → neg_at (neg_at l i) i = l := by
  induction l with
  | nil => intro i h; simp at h
  | cons x xs ih =>
    intro i h
    cases i with
    | zero => simp [neg_at]
    | succ j =>
      simp only [neg_at, List.cons.injEq, true_and]
      exact ih j (by simpa using h)

theorem neg_at_comm (l : List Int) : ∀ i j, i ≠ j →
    neg_at (neg_at l i) j = neg_at (neg_at l j) i := by
  induction l with
  | nil => intro i j _; rfl
  | cons x xs ih =>
    intro i j hij
    cases i with
    | zero =>
      cases j with
      | zero => omega
      | succ j' => simp [neg_at]
    | succ i' =>
      cases j with
      | zero => simp [neg_at]
      | succ j' =>
        simp only [neg_at, List.cons.injEq, true_and]
        exact ih i' j' (by omega)

theorem mirror_cmd_invol (t : PathCmd)
    (h : t.2.length = (path_cmd_arg_cnt t.1).toNat) :
    mirror_cmd (mirror_cmd t) = t := by
  obtain ⟨x, args⟩ := t
  by_cases h1 : x = 'M' ∨ x = 'm' ∨ x = 'L' ∨ x = 'l' ∨ x = 'T' ∨ x = 't'
  · have hlen : args.length = 2 := by
      simpa [path_cmd_arg_cnt, h1] using h
    simp only [mirror_cmd, if_pos h1]
    rw [neg_at_invol args 1 (by omega)]
  · by_cases h2 : x = 'V' ∨ x = 'v'
    · have hlen : args.length = 1 := by
        simpa [path_cmd_arg_cnt, h1, h2] using h
      simp only [mirror_cmd, if_neg h1, if_pos h2]
      rw [neg_at_invol args 0 (by omega)]
    · by_cases h3 : x = 'C' ∨ x = 'c'
      · have hHV : ¬ (x = 'H' ∨ x = 'h' ∨ x = 'V' ∨ x = 'v') := by
          rcases h3 with rfl | rfl <;> simp
        have hlen : args.length = 6 := by
          simpa [path_cmd_arg_cnt, h1, hHV, h3] using h
        simp only [mirror_cmd, if_neg h1, if_neg h2, if_pos h3]
        rw [neg_at_comm _ 5 1 (by omega), neg_at_comm _ 5 3 (by omega),
          neg_at_invol _ 5 (by simp [hlen]),
          neg_at_comm _ 3 1 (by omega),
          neg_at_invol _ 3 (by simp [hlen]),
          neg_at_invol _ 1 (by omega)]
      · by_cases h4 : x = 'S' ∨ x = 's' ∨ x = 'Q' ∨ x = 'q'
        · have hHV : ¬ (x = 'H' ∨ x = 'h' ∨ x = 'V' ∨ x = 'v') := by
            rcases h4 with rfl | rfl | rfl | rfl <;> simp
          have hlen : args.length = 4 := by
            simpa [path_cmd_arg_cnt, h1, hHV, h3, h4] using h
          simp only [mirror_cmd, if_neg h1, if_neg h2, if_neg h3, if_pos h4]
          rw [neg_at_comm _ 3 1 (by omega),
            neg_at_invol _ 3 (by simp [hlen]),
            neg_at_invol _ 1 (by omega)]
        · simp only [mirror_cmd, if_neg h1, if_neg h2, if_neg h3, if_neg h4]

/-! # The claims -/

theorem flatMap_map_succ {β : Type} (R : Nat) (f : Nat → List β) :
    ((List.range R).map Nat.succ).flatMap f = (List.range R).flatMap (fun r => f (r + 1)) := by
  induction (List.range R) with
  | nil => rfl
  | cons y ys ihy => simp [List.flatMap_cons, ihy, Nat.succ_eq_add_one]

/-- C1: the claim says `write_clm_kerning_class` writes the table count and
then each table's full encoding.  The code writes the count from
`len(list(kerning_classes))`, which exhausts the iterator it was handed, so
the `for` loop writes nothing: for one kerning class table the entire
output is the two count bytes `[0, 1]` and no table data follows. -/
theorem write_clm_kerning_class_table_lost :
    write_clm_kerning_class
      ⟨[⟨[none, some ["A", "B"]], [none, some ["C"]], [0, 0, 0, 5]⟩]⟩ =
      ([0, 1], true) := rfl

/-- C2: the claim says `write_kerns` emits the pair count and then the `N`
sorted pairs.  `kerns` is the single-use iterator `read_kern` returned;
`len(list(kerns))` exhausts it, so the sort sees nothing and only the two
count bytes are written: for one kerning pair the whole section is
`[0, 1]`. -/
theorem write_kerns_pairs_lost :
    write_kerns ⟨[("b", 5)]⟩ (fun _ => 7) = [0, 1] := rfl

/-- C3: for a kerning class table with `R ≥ 1` left classes, `C ≥ 1` right
classes and an `R*C`-cell row-major value matrix, the emitted value block
is exactly the matrix rows `1..R-1`, each without its column-0 cell, in
row-major order — hence no cell of row 0 or column 0 appears and exactly
`(R-1)*(C-1)` cells are emitted. -/
theorem kerning_class_value_block (left right : List (Option (List String)))
    (value : List Int) (hR : 1 ≤ left.length) (hC : 1 ≤ right.length)
    (hv : value.length = left.length * right.length) :
    kc_values right.length 0 value =
      ((List.range left.length).drop 1).flatMap
        (fun r => ((value.drop (r * right.length)).take right.length).drop 1) ∧
    (kc_values right.length 0 value).length =
      (left.length - 1) * (right.length - 1) := by
  set R := left.length with hRdef
  set C := right.length with hCdef
  obtain ⟨R', hR'⟩ : ∃ R', R = R' + 1 := ⟨R - 1, by omega⟩
  have hrest : (value.drop C).length = R' * C := by
    rw [List.length_drop, hv, hR']
    rw [Nat.succ_mul]
    omega
  constructor
  · have h := kc_values_rows C hC R 0 value hv
    rw [Nat.zero_mul] at h
    rw [h, hR', List.range_succ_eq_map, List.flatMap_cons]
    simp only [Nat.add_zero, if_pos rfl, List.nil_append, List.drop_succ_cons,
      List.drop_zero]
    rw [flatMap_map_succ, flatMap_map_succ]
    refine flatMap_congr_mem _ _ _ ?_
    intro r hr
    rw [if_neg (by omega)]
  · have hsplit : value = value.take C ++ value.drop C :=
      (List.take_append_drop C value).symm
    have htake : (value.take C).length = C := by
      rw [List.length_take]
      have : C ≤ value.length := by
        rw [hv, hR']
        nlinarith
      omega
    conv_lhs => rw [hsplit]
    rw [kc_values_append, htake]
    have hrow0 : kc_values C 0 (value.take C) = [] := by
      have := kc_values_row C 0 (value.take C) hC htake
      rw [Nat.zero_mul] at this
      simpa using this
    have hrows : (kc_values C (0 + C) (value.drop C)).length = R' * (C - 1) := by
      have h1 : (0 + C : Nat) = 1 * C := by omega
      rw [h1]
      exact kc_values_length_from C hC R' 1 (value.drop C) hrest (le_refl 1)
    rw [hrow0, List.nil_append, hrows, hR']
    congr 1

/-- C3 witness: the table with left classes `[sentinel, {A,B}]`, right
classes `[sentinel, {C}]` and matrix `[[0,0],[0,5]]` emits only the single
value `5` — one cell, `(2-1)*(2-1) = 1`. -/
theorem kerning_class_value_block_witness :
    kc_values 2 0 [0, 0, 0, 5] = [5] ∧
      (kc_values 2 0 [0, 0, 0, 5]).length = (2 - 1) * (2 - 1) := by
  have h := kerning_class_value_block [none, some ["A", "B"]] [none, some ["C"]]
    [0, 0, 0, 5] (by decide) (by decide) (by decide)
  exact ⟨h.1.trans (by decide), h.2⟩

/-- C4 counterexample: the claim quantifies over every rule list and every
permutation, but when two rules carry the same component sequence with
different resulting glyphs, the last one processed wins, so swapping them
changes the serialized liga field: `[a→1, a→2]` and its permutation
`[a→2, a→1]` serialize differently. -/
theorem write_ligas_perm_counterexample :
    ([(["a"], (1 : Int)), (["a"], 2)] : List (List String × Int)).Perm
        [(["a"], 2), (["a"], 1)] ∧
      write_ligas [(["a"], 1), (["a"], 2)] (fun _ => 5) ≠
        write_ligas [(["a"], 2), (["a"], 1)] (fun _ => 5) := by
  constructor
  · exact List.Perm.swap _ _ _
  · simp [write_ligas, build_forest, add_node, addGo, freshChain, sortForest,
      serForest, ordInsert, packU16, packU32, packI32]

/-- C4 (amended): for every rule list in which any two rules whose component
sequences resolve to the same glyph-id sequence have the same resulting
ligature id, every permutation of the list yields byte-identical
serialization of the trie. -/
theorem write_ligas_perm_invariant (ligas1 ligas2 : List (List String × Int))
    (m : String → Nat) (hperm : ligas1.Perm ligas2)
    (hco : ∀ r1 ∈ ligas1, ∀ r2 ∈ ligas1, r1.1.map m = r2.1.map m → r1.2 = r2.2) :
    write_ligas ligas1 m = write_ligas ligas2 m := by
  rw [write_ligas_eq_swrite, write_ligas_eq_swrite]
  refine swrite_ligas_perm _ _ (hperm.map (idRule m)) ?_
  intro r1 h1 r2 h2 hr
  rcases List.mem_map.mp h1 with ⟨s1, hs1, rfl⟩
  rcases List.mem_map.mp h2 with ⟨s2, hs2, rfl⟩
  simp only [idRule] at hr ⊢
  exact hco s1 hs1 s2 hs2 hr

/-- C4 witness: the `ffi`/`ff` rules in either order produce the same
bytes. -/
theorem write_ligas_perm_invariant_witness :
    ([(["f", "f", "i"], (10 : Int)), (["f", "f"], 11)] :
        List (List String × Int)).Perm [(["f", "f"], 11), (["f", "f", "i"], 10)] ∧
      write_ligas [(["f", "f", "i"], 10), (["f", "f"], 11)]
          (fun c => if c = "i" then 2 else 1) =
        write_ligas [(["f", "f"], 11), (["f", "f", "i"], 10)]
          (fun c => if c = "i" then 2 else 1) :=
  ⟨List.Perm.swap _ _ _,
    write_ligas_perm_invariant _ _ _ (List.Perm.swap _ _ _) (by decide)⟩

/-- C5: on every parsed path command list (each command carrying exactly the
operand count of its opcode), mirroring twice returns the original list. -/
theorem mirror_mirror (p : List PathCmd) (h : PathWF p) :
    mirror (mirror p) = p := by
  induction p with
  | nil => rfl
  | cons t p' ih =>
    have ht := h t (List.mem_cons_self t p')
    have hp' : PathWF p' := fun u hu => h u (List.mem_cons_of_mem t hu)
    simp only [mirror, List.map_cons]
    rw [mirror_cmd_invol t ht]
    have htail : (p'.map mirror_cmd).map mirror_cmd = mirror (mirror p') := rfl
    rw [htail, ih hp']

/-- C5 witness: mirroring `[M 10 20, Z]` twice is the identity. -/
theorem mirror_mirror_witness :
    PathWF [('M', [10, 20]), ('Z', [])] ∧
      mirror (mirror [('M', [10, 20]), ('Z', [])]) = [('M', [10, 20]), ('Z', [])] :=
  ⟨by unfold PathWF; decide, mirror_mirror _ (by unfold PathWF; decide)⟩

/-- C6: the path description `M 10 20 L 30 40 Z` parses to
`[(M,10,20), (L,30,40), (Z,)]` (the close command kept with zero operands)
and mirrors to `[(M,10,-20), (L,30,-40), (Z,)]`. -/
theorem parse_example_path :
    parse_path_cmds "M 10 20 L 30 40 Z".toList =
        some [('M', [10, 20]), ('L', [30, 40]), ('Z', [])] ∧
      read_glyph_path "M 10 20 L 30 40 Z".toList =
        some [('M', [10, -20]), ('L', [30, -40]), ('Z', [])] :=
  ⟨rfl, rfl⟩

/-- C7: for every unicode→glyph map, in any input order and with duplicates
allowed, the entry sequence the writer emits has non-decreasing
codepoints. -/
theorem unicode_map_sorted (m : List (Nat × Nat)) :
    List.Sorted (fun a b => a.1 ≤ b.1) (unicode_sort_map m) :=
  sorted_isortKey Prod.fst m

theorem clm_header_take (mf hp : Bool) (em xh asc desc : Nat) (rest : List Nat) :
    (clm_header mf hp em xh asc desc ++ rest).take 7 =
      [99, 108, 109, 0, 2, if hp then 2 else 1, if mf then 1 else 0] := by
  cases mf <;> cases hp <;> rfl

/-- C8: every conversion run's output starts with the ASCII magic
`c`,`l`,`m` (99,108,109), the unsigned 16-bit major version 2 (bytes 0,2),
the unsigned 8-bit minor version (2 when glyph paths are included, else 1),
and the 1-byte math-font flag. -/
theorem clm_output_header (fm : FontModel) :
    (clm_output fm).1.take 7 =
      [99, 108, 109, 0, 2, if fm.have_glyph_path then 2 else 1,
        if fm.is_math_font then 1 else 0] := by
  simp only [clm_output]
  split
  · simp only [List.append_assoc]
    exact clm_header_take _ _ _ _ _ _ _
  · split
    · simp only [List.append_assoc]
      exact clm_header_take _ _ _ _ _ _ _
    · simp only [List.append_assoc]
      exact clm_header_take _ _ _ _ _ _ _

/-- C9: the claim says every invocation with fewer than the four required
arguments prints usage and returns cleanly.  The guard is
`len(sys.argv) < 4`, but `sys.argv[0]` is the script path, so an invocation
with exactly three of the four required arguments passes the guard and
`sys.argv[4]` raises `IndexError` instead of printing usage. -/
theorem main_three_args_index_error :
    main_model ["otf2clm.py", "font.otf", "true", "true"] = .indexError := rfl

/-- C10: every pair in the per-glyph kerning list built by `read_kern` has a
non-zero kerning value: pairs whose horizontal kerning is 0 are filtered
out before encoding. -/
theorem read_kern_nonzero (getPosSub : String → List KernInfo)
    (names : List String) (p : String × Int)
    (hp : p ∈ read_kern getPosSub names) : p.2 ≠ 0 := by
  unfold read_kern at hp
  rcases List.mem_map.mp hp with ⟨k, hk, rfl⟩
  have := (List.mem_filter.mp hk).2
  simpa using this

/-- C10 witness: with one subtable yielding a zero and a non-zero pair, the
surviving pair's value is non-zero. -/
theorem read_kern_nonzero_witness : (("y", (3 : Int)).2 ≠ 0) :=
  read_kern_nonzero (fun _ => [⟨"x", 0⟩, ⟨"y", 3⟩]) ["t"] ("y", 3) (by decide)
